import Mathlib

/-!
A verification development for the core of the RagOp repository: the
line-chunking pipeline (src/ragop/index.py), BM25 ranking and snippet
composition (src/ragop/retrieve.py, src/ragop/compose.py), and the
incremental change tracking (incremental.py and the incremental branch of
src/ragop/cli.py).

Modelling conventions: a file is modelled by its decoded list of lines
(path.read_text followed by text.splitlines); the persisted index by its
list of chunk records; a filesystem snapshot by the manifest the code
computes from it. Python float arithmetic is modelled by exact rational
arithmetic; math.log is an arbitrary function parameter (no property of
the logarithm is needed by any statement below). While loops are modelled
by fuelled structural recursion with provably sufficient fuel.
-/

namespace RagOp

/-- Chunk record (index.py, class Chunk): a line-range slice of one file. -/
structure Chunk where
  path : String
  start_line : Nat
  end_line : Nat
  text : String
  deriving DecidableEq

/-- "\n".join(lines) -/
def joinLines (ls : List String) : String := String.intercalate "\n" ls

/-- The chunk yielded by _chunk_file for the 0-based line window [i, j):
Chunk(path, start_line = i+1, end_line = j, text = "\n".join(lines[i:j])). -/
def mkChunk (path : String) (lines : List String) (i j : Nat) : Chunk :=
  ⟨path, i + 1, j, joinLines ((lines.drop i).take (j - i))⟩

/-- The while-loop of _chunk_file (index.py lines 55-62):
  while i < n: j = min(n, i + lines_per_chunk); yield chunk(i+1, j);
  if j >= n: break; i = max(i + lines_per_chunk - overlap, j).
Fuelled structural recursion; every iteration advances i by at least
lines_per_chunk, so lines.length + 1 fuel is always sufficient when
lines_per_chunk is positive (the configuration of every claim). -/
def chunk_loop (path : String) (lines : List String) (lpc ov : Nat) : Nat → Nat → List Chunk
  | 0, _ => []
  | fuel + 1, i =>
    if i < lines.length then
      if lines.length ≤ min lines.length (i + lpc) then
        [mkChunk path lines i (min lines.length (i + lpc))]
      else
        mkChunk path lines i (min lines.length (i + lpc)) ::
          chunk_loop path lines lpc ov fuel (max (i + lpc - ov) (min lines.length (i + lpc)))
    else []

/-- CHUNK_LINES (index.py line 11). -/
def CHUNK_LINES : Nat := 200

/-- CHUNK_OVERLAP (index.py line 12). -/
def CHUNK_OVERLAP : Nat := 40

/-- _chunk_file at its default configuration (lines_per_chunk = 200,
overlap = 40), on the decoded line list of the file. -/
def chunk_file (path : String) (lines : List String) : List Chunk :=
  chunk_loop path lines CHUNK_LINES CHUNK_OVERLAP (lines.length + 1) 0

lemma chunk_loop_nil (path : String) (lines : List String) (lpc ov fuel i : Nat)
    (hi : ¬ i < lines.length) : chunk_loop path lines lpc ov (fuel + 1) i = [] := by
  simp [chunk_loop, hi]

lemma chunk_loop_last (path : String) (lines : List String) (lpc ov fuel i : Nat)
    (hi : i < lines.length) (hj : lines.length ≤ i + lpc) :
    chunk_loop path lines lpc ov (fuel + 1) i = [mkChunk path lines i lines.length] := by
  have hmin : min lines.length (i + lpc) = lines.length := Nat.min_eq_left hj
  simp [chunk_loop, hi, hmin]

lemma chunk_loop_step (path : String) (lines : List String) (lpc ov fuel i : Nat)
    (hi : i < lines.length) (hj : i + lpc < lines.length) :
    chunk_loop path lines lpc ov (fuel + 1) i =
      mkChunk path lines i (i + lpc) :: chunk_loop path lines lpc ov fuel (i + lpc) := by
  have hmin : min lines.length (i + lpc) = i + lpc := Nat.min_eq_right (Nat.le_of_lt hj)
  have hmax : max (i + lpc - ov) (i + lpc) = i + lpc := Nat.max_eq_right (Nat.sub_le _ _)
  have hcond : ¬ lines.length ≤ min lines.length (i + lpc) := by
    rw [hmin]; exact Nat.not_le_of_lt hj
  simp only [chunk_loop, if_pos hi, if_neg hcond, hmin, hmax,
    if_neg (Nat.not_le_of_lt hj)]

/-- The overlap argument of _chunk_file never influences the output: the
update i = max(i + lines_per_chunk - overlap, j) is always clamped to
j = i + lines_per_chunk in the branch where the loop continues. -/
lemma chunk_loop_overlap_irrelevant (path : String) (lines : List String) (lpc ov : Nat) :
    ∀ fuel i, chunk_loop path lines lpc ov fuel i = chunk_loop path lines lpc 0 fuel i := by
  intro fuel
  induction fuel with
  | zero => intro i; rfl
  | succ fuel ih =>
    intro i
    by_cases hi : i < lines.length
    · by_cases hj : lines.length ≤ i + lpc
      · rw [chunk_loop_last path lines lpc ov fuel i hi hj,
            chunk_loop_last path lines lpc 0 fuel i hi hj]
      · have hj' : i + lpc < lines.length := Nat.lt_of_not_le hj
        rw [chunk_loop_step path lines lpc ov fuel i hi hj',
            chunk_loop_step path lines lpc 0 fuel i hi hj', ih]
    · rw [chunk_loop_nil path lines lpc ov fuel i hi,
          chunk_loop_nil path lines lpc 0 fuel i hi]

/-- Main invariant bundle for the chunking loop: head start line, per-chunk
bounds, line coverage, final end line, and adjacency of consecutive chunks. -/
lemma chunk_loop_props (path : String) (lines : List String) (lpc ov : Nat) (hl : 0 < lpc) :
    ∀ fuel i, lines.length ≤ i + fuel → i < lines.length →
      (∃ hd tl, chunk_loop path lines lpc ov fuel i = hd :: tl ∧ hd.start_line = i + 1) ∧
      (∀ c ∈ chunk_loop path lines lpc ov fuel i,
        i + 1 ≤ c.start_line ∧ c.start_line ≤ c.end_line ∧ c.end_line ≤ lines.length) ∧
      (∀ m, i + 1 ≤ m → m ≤ lines.length →
        ∃ c ∈ chunk_loop path lines lpc ov fuel i, c.start_line ≤ m ∧ m ≤ c.end_line) ∧
      (∃ c, (chunk_loop path lines lpc ov fuel i).getLast? = some c ∧
        c.end_line = lines.length) ∧
      List.Chain' (fun a b => b.start_line = a.end_line + 1)
        (chunk_loop path lines lpc ov fuel i) := by
  intro fuel
  induction fuel with
  | zero => intro i hfu hi; omega
  | succ fuel ih =>
    intro i hfu hi
    by_cases hj : lines.length ≤ i + lpc
    · rw [chunk_loop_last path lines lpc ov fuel i hi hj]
      refine ⟨⟨mkChunk path lines i lines.length, [], rfl, rfl⟩, ?_, ?_, ?_, ?_⟩
      · intro c hc
        rcases List.mem_singleton.mp hc with rfl
        refine ⟨Nat.le_refl _, ?_, Nat.le_refl _⟩
        show i + 1 ≤ lines.length
        omega
      · intro m hm1 hm2
        exact ⟨mkChunk path lines i lines.length, List.mem_singleton.mpr rfl, hm1, hm2⟩
      · exact ⟨mkChunk path lines i lines.length, rfl, rfl⟩
      · exact List.chain'_singleton _
    · have hj' : i + lpc < lines.length := Nat.lt_of_not_le hj
      rw [chunk_loop_step path lines lpc ov fuel i hi hj']
      have hfu' : lines.length ≤ (i + lpc) + fuel := by omega
      obtain ⟨⟨hd, tl, hrest, hhd⟩, hbnd, hcov, ⟨cl, hcl, hcln⟩, hchain⟩ :=
        ih (i + lpc) hfu' hj'
      refine ⟨⟨mkChunk path lines i (i + lpc), _, rfl, rfl⟩, ?_, ?_, ?_, ?_⟩
      · intro c hc
        rcases List.mem_cons.mp hc with rfl | hc
        · refine ⟨Nat.le_refl _, ?_, Nat.le_of_lt hj'⟩
          show i + 1 ≤ i + lpc
          omega
        · obtain ⟨h1, h2, h3⟩ := hbnd c hc
          exact ⟨by omega, h2, h3⟩
      · intro m hm1 hm2
        by_cases hmle : m ≤ i + lpc
        · exact ⟨mkChunk path lines i (i + lpc), List.mem_cons_self _ _, hm1, hmle⟩
        · obtain ⟨c, hcmem, hc1, hc2⟩ := hcov m (by omega) hm2
          exact ⟨c, List.mem_cons_of_mem _ hcmem, hc1, hc2⟩
      · refine ⟨cl, ?_, hcln⟩
        rw [hrest] at hcl ⊢
        rw [List.getLast?_cons_cons]
        exact hcl
      · rw [hrest] at hchain ⊢
        refine List.chain'_cons.mpr ⟨?_, hchain⟩
        show hd.start_line = (mkChunk path lines i (i + lpc)).end_line + 1
        rw [hhd]
        rfl

set_option maxRecDepth 10000 in
/-- C1: the claim that chunking with size 200 and overlap 40 makes each
subsequent chunk start at the previous end minus the overlap, with
ceil((n-200)/160)+1 chunks for n > 200, is false of the code. On a
400-line file the code emits the two disjoint chunks [1,200] and
[201,400] (the claim requires three chunks, the second starting at
line 160); moreover the overlap argument provably never influences the
output, because i = max(i + lines_per_chunk - overlap, j) is clamped to
j = i + lines_per_chunk whenever the loop continues. -/
theorem chunk_file_no_overlap :
    ((chunk_file "f.md" (List.replicate 400 "x")).map fun c => (c.start_line, c.end_line))
        = [(1, 200), (201, 400)] ∧
    ∀ path lines lpc ov fuel i,
      chunk_loop path lines lpc ov fuel i = chunk_loop path lines lpc 0 fuel i := by
  constructor
  · rfl
  · intro path lines lpc ov fuel i
    exact chunk_loop_overlap_irrelevant path lines lpc ov fuel i

/-- C4: for every file, chunking terminates; no chunk has start > end; the
final chunk ends at line n; every line 1..n is covered, consecutive chunks
leaving no gap (each starts right after its predecessor ends); and a
zero-line file emits no chunks. -/
theorem chunk_file_sound (path : String) (lines : List String) :
    (lines.length = 0 → chunk_file path lines = []) ∧
    (0 < lines.length →
      chunk_file path lines ≠ [] ∧
      (∃ c, (chunk_file path lines).getLast? = some c ∧ c.end_line = lines.length) ∧
      (∀ c ∈ chunk_file path lines, c.start_line ≤ c.end_line) ∧
      (∀ m, 1 ≤ m → m ≤ lines.length →
        ∃ c ∈ chunk_file path lines, c.start_line ≤ m ∧ m ≤ c.end_line) ∧
      List.Chain' (fun a b => b.start_line = a.end_line + 1) (chunk_file path lines)) := by
  constructor
  · intro h0
    show chunk_loop path lines CHUNK_LINES CHUNK_OVERLAP (lines.length + 1) 0 = []
    rw [h0]
    exact chunk_loop_nil path lines CHUNK_LINES CHUNK_OVERLAP 0 0 (by omega)
  · intro hpos
    obtain ⟨⟨hd, tl, hcons, _⟩, hbnd, hcov, hlast, hchain⟩ :=
      chunk_loop_props path lines CHUNK_LINES CHUNK_OVERLAP (by decide)
        (lines.length + 1) 0 (by omega) hpos
    refine ⟨?_, hlast, ?_, ?_, hchain⟩
    · show chunk_loop path lines CHUNK_LINES CHUNK_OVERLAP (lines.length + 1) 0 ≠ []
      rw [hcons]
      exact List.cons_ne_nil _ _
    · intro c hc
      exact (hbnd c hc).2.1
    · intro m hm1 hm2
      exact hcov m hm1 hm2

theorem chunk_file_sound_witness :
    0 < (["a", "b"] : List String).length ∧
    ∃ c ∈ chunk_file "f.md" ["a", "b"], c.start_line ≤ 2 ∧ 2 ≤ c.end_line :=
  ⟨by decide,
    ((chunk_file_sound "f.md" ["a", "b"]).2 (by decide)).2.2.2.1 2 (by decide) (by decide)⟩

/-- The record sequence a full build writes: build_index (index.py 65-76)
iterates the files and appends every chunk of every file in chunking
order. A source tree is modelled by its list of (path, lines) files. -/
def build_records (files : List (String × List String)) : List Chunk :=
  files.flatMap fun pr => chunk_file pr.1 pr.2

/-- Observable contents of the index location while build_index runs:
ipath.open("w") truncates the target in place (there is no temporary file
and no rename in build_index), then one record is appended per write.
The first observable state is the empty file; each later one is the
prefix of the final record list written so far. The prior content of the
index location (the first argument) is destroyed at open and never
observable afterwards. -/
def build_index_trace (oldContent : List Chunk) (files : List (String × List String)) :
    List (List Chunk) :=
  (List.range ((build_records files).length + 1)).map fun i => (build_records files).take i

/-- C2 counterexample: the claim says a reader can only ever observe the
prior index content or the fully written new index during a full build.
But build_index truncates the target on open, so the empty index is
observable while the old content was nonempty and the new index is
nonempty. -/
theorem build_index_not_atomic :
    ∃ s ∈ build_index_trace [⟨"old.md", 1, 1, "old"⟩] [("f.md", ["x"])],
      s ≠ [⟨"old.md", 1, 1, "old"⟩] ∧ s ≠ build_records [("f.md", ["x"])] := by
  decide

/-- C2 amended: build_index writes the records directly to the index
location (no temporary path, no rename): the observable states of the
index location during a full build are exactly the prefixes of the final
record sequence, beginning with the empty (truncated) file and ending
with the complete new index, and they do not depend on the previously
persisted content — so an interrupted full build leaves a partial prefix,
not the prior index. (Atomic temp-file-plus-rename writes do exist in the
repository, but only for the CLI incremental merge and the manifests.) -/
theorem build_index_trace_spec (oldContent : List Chunk)
    (files : List (String × List String)) :
    [] ∈ build_index_trace oldContent files ∧
    (∀ s ∈ build_index_trace oldContent files, ∃ i, s = (build_records files).take i) ∧
    build_records files ∈ build_index_trace oldContent files ∧
    (∀ oldContent', build_index_trace oldContent files = build_index_trace oldContent' files) := by
  refine ⟨?_, ?_, ?_, fun _ => rfl⟩
  · refine List.mem_map.mpr ⟨0, ?_, by simp⟩
    exact List.mem_range.mpr (by omega)
  · intro s hs
    obtain ⟨i, _, hi⟩ := List.mem_map.mp hs
    exact ⟨i, hi.symm⟩
  · refine List.mem_map.mpr ⟨(build_records files).length, ?_, List.take_length _⟩
    exact List.mem_range.mpr (by omega)

theorem build_index_trace_spec_witness :
    ∃ i, ([⟨"f.md", 1, 1, "x"⟩] : List Chunk) = (build_records [("f.md", ["x"])]).take i :=
  (build_index_trace_spec [] [("f.md", ["x"])]).2.1 [⟨"f.md", 1, 1, "x"⟩] (by decide)

/-- A character matched by TOKEN_RE = [A-Za-z0-9_]+ (retrieve.py line 10). -/
def isWordChar (c : Char) : Bool := c.isAlphanum || c == '_'

/-- Scanner for maximal runs of word characters; the accumulator holds the
current run in reverse. Each finished run is emitted lowercased, as in
[t.lower() for t in TOKEN_RE.findall(text)]. -/
def tokenizeAux : List Char → List Char → List String
  | [], acc => if acc.isEmpty then [] else [String.mk (acc.reverse.map Char.toLower)]
  | c :: cs, acc =>
    if isWordChar c then tokenizeAux cs (c :: acc)
    else if acc.isEmpty then tokenizeAux cs []
    else String.mk (acc.reverse.map Char.toLower) :: tokenizeAux cs []

/-- _tokenize (retrieve.py lines 13-14). -/
def tokenize (s : String) : List String := tokenizeAux s.toList []

/-- BM25 constant k1 = 1.5 (retrieve.py line 29). -/
def bm25_k1 : ℚ := 3 / 2

/-- BM25 constant b = 0.75 (retrieve.py line 30). -/
def bm25_b : ℚ := 3 / 4

/-- Token lists of all chunks (retrieve.py lines 37-39). -/
def chunkTokens (chunks : List Chunk) : List (List String) :=
  chunks.map fun ch => tokenize ch.text

/-- Total token count over the corpus, the numerator of avgdl. -/
def totalTokens (toks : List (List String)) : Nat := (toks.map List.length).sum

/-- Python `x or d` on a float x: yields d exactly when x == 0. -/
def pyOrQ (x d : ℚ) : ℚ := if x = 0 then d else x

/-- Document frequency of a term: how many chunks contain it
(retrieve.py lines 43-45). -/
def docFreq (toks : List (List String)) (t : String) : Nat :=
  (toks.filter fun tk => tk.contains t).length

/-- idf(term) = log((N - df + 0.5)/(df + 0.5) + 1) (retrieve.py 47-49). -/
def bm25Idf (log : ℚ → ℚ) (N dfv : Nat) : ℚ :=
  log (((N : ℚ) - (dfv : ℚ) + 1 / 2) / ((dfv : ℚ) + 1 / 2) + 1)

/-- One term's contribution to a chunk's score, for the given (already
guarded) average document length: idf(q) * (tf*(k1+1)) / (denom or 1e-9)
with denom = tf + k1*(1 - b + b*(dl/avgdl)) (retrieve.py 56-61). -/
def bm25TermScore (log : ℚ → ℚ) (toks : List (List String)) (N : Nat) (avgdl : ℚ)
    (tk : List String) (q : String) : ℚ :=
  bm25Idf log N (docFreq toks q) *
    (((tk.count q : ℚ) * (bm25_k1 + 1)) /
      pyOrQ ((tk.count q : ℚ) + bm25_k1 * (1 - bm25_b + bm25_b * ((tk.length : ℚ) / avgdl)))
        (1 / 1000000000))

/-- _bm25_scores (retrieve.py lines 26-63): for each chunk, fold over the
query's token sequence, skipping terms absent from the chunk and adding
the BM25 term contribution otherwise; avgdl = total/max(1, N) guarded by
`avgdl or 1` at its use site. -/
def bm25_scores (log : ℚ → ℚ) (chunks : List Chunk) (query : String) : List ℚ :=
  (chunkTokens chunks).map fun tk =>
    (tokenize query).foldl
      (fun s q =>
        if tk.contains q then
          s + bm25TermScore log (chunkTokens chunks) chunks.length
              (pyOrQ ((totalTokens (chunkTokens chunks) : ℚ) /
                ((max 1 chunks.length : Nat) : ℚ)) 1) tk q
        else s) 0

/-- The claim's average document length: the mean token count, defaulting
to 1 on an empty corpus. -/
def bm25AvgdlSpec (chunks : List Chunk) : ℚ :=
  if chunks.length = 0 then 1
  else (totalTokens (chunkTokens chunks) : ℚ) / (chunks.length : ℚ)

/-- The claim's scoring formula: for each chunk, the sum over the query
terms occurring in that chunk of idf(term)*(tf*(k1+1))/(tf + k1*(1-b+b*dl/avgdl)),
with the denominator floored by a small epsilon in place of zero. -/
def bm25_scores_spec (log : ℚ → ℚ) (chunks : List Chunk) (query : String) : List ℚ :=
  (chunkTokens chunks).map fun tk =>
    (((tokenize query).filter fun q => tk.contains q).map
      (bm25TermScore log (chunkTokens chunks) chunks.length (bm25AvgdlSpec chunks) tk)).sum

lemma foldl_filter_sum (p : String → Bool) (f : String → ℚ) :
    ∀ (l : List String) (s : ℚ),
      l.foldl (fun acc q => if p q then acc + f q else acc) s
        = s + ((l.filter p).map f).sum := by
  intro l
  induction l with
  | nil => intro s; simp
  | cons q t ih =>
    intro s
    by_cases hq : p q
    · simp only [List.foldl_cons, if_pos hq, ih, List.filter_cons, hq, if_pos,
        List.map_cons, List.sum_cons]
      ring
    · simp only [List.foldl_cons, if_neg hq, ih, List.filter_cons, hq]
      simp

lemma avgdl_guard_eq (chunks : List Chunk) (tk : List String)
    (htk : tk ∈ chunkTokens chunks) :
    (tk.length : ℚ) / pyOrQ ((totalTokens (chunkTokens chunks) : ℚ) /
        ((max 1 chunks.length : Nat) : ℚ)) 1
      = (tk.length : ℚ) / bm25AvgdlSpec chunks := by
  have hne : chunks ≠ [] := by
    intro h
    rw [h] at htk
    simp [chunkTokens] at htk
  have hN : chunks.length ≠ 0 := fun h => hne (List.length_eq_zero.mp h)
  have hmax : (max 1 chunks.length : Nat) = chunks.length :=
    Nat.max_eq_right (Nat.one_le_iff_ne_zero.mpr hN)
  rw [hmax]
  by_cases htot : totalTokens (chunkTokens chunks) = 0
  · have htkl : tk.length = 0 := by
      have := List.sum_eq_zero_iff.mp htot tk.length
          (List.mem_map_of_mem List.length htk)
      exact this
    rw [htot, htkl]
    simp [pyOrQ, bm25AvgdlSpec, hN]
  · have h0 : ((totalTokens (chunkTokens chunks) : ℚ) / (chunks.length : ℚ)) ≠ 0 := by
      refine div_ne_zero ?_ ?_
      · exact_mod_cast htot
      · exact_mod_cast hN
    rw [pyOrQ, if_neg h0, bm25AvgdlSpec, if_neg hN]

/-- C6: each chunk's score equals the sum, over query terms occurring in
that chunk, of idf(term)*(tf*(k1+1))/(tf + k1*(1-b+b*dl/avgdl)) with
k1 = 1.5, b = 0.75, idf(term) = log((N-df+0.5)/(df+0.5)+1), avgdl the
mean token count defaulting to 1 on an empty corpus, and the denominator
replaced by a small epsilon when it would be zero. -/
theorem bm25_scores_match_formula (log : ℚ → ℚ) (chunks : List Chunk) (query : String) :
    bm25_scores log chunks query = bm25_scores_spec log chunks query := by
  unfold bm25_scores bm25_scores_spec
  refine List.map_congr_left ?_
  intro tk htk
  rw [foldl_filter_sum]
  rw [zero_add]
  congr 1
  refine List.map_congr_left ?_
  intro q _
  unfold bm25TermScore
  rw [avgdl_guard_eq chunks tk htk]

/-- Retrieval record (retrieve.py, class Retrieval). -/
structure Retrieval where
  path : String
  start_line : Nat
  end_line : Nat
  text : String
  score : ℚ
  deriving DecidableEq

/-- Python slice text[:m] for an int m: a nonnegative bound keeps the
first m characters, a negative bound drops the last -m. -/
def pySliceTo (s : String) (m : Int) : String :=
  if 0 ≤ m then s.take m.toNat else s.take (s.length - (-m).toNat)

/-- str.rstrip(): drop trailing whitespace. -/
def rstrip (s : String) : String :=
  String.mk ((s.toList.reverse.dropWhile Char.isWhitespace).reverse)

/-- The single-character ellipsis appended by both trimmers. -/
def ellipsisChar : String := "…"

/-- retrieve's snippet trimming (retrieve.py 89-90):
if snippet_max_chars and len(text) > snippet_max_chars:
  text = text[:snippet_max_chars - 1].rstrip() + "…" -/
def retrieveTrim (text : String) (smax : Option Int) : String :=
  match smax with
  | none => text
  | some m =>
    if m ≠ 0 ∧ m < (text.length : Int) then rstrip (pySliceTo text (m - 1)) ++ ellipsisChar
    else text

/-- Insert into a score-descending list, after every element of score ≥ the
new one: models one step of a stable descending sort by score. -/
def insertByScore (x : Nat × (Chunk × ℚ)) : List (Nat × (Chunk × ℚ)) → List (Nat × (Chunk × ℚ))
  | [] => [x]
  | y :: ys => if y.2.2 ≤ x.2.2 then x :: y :: ys else y :: insertByScore x ys

/-- Stable descending sort by score: models
sorted(zip(chunks, scores), key=lambda t: t[1], reverse=True)
(retrieve.py line 85; Python's sorted is stable). The Nat component is the
input position recorded by enumeration; it takes no part in comparisons
and only witnesses stability. -/
def sortByScoreDesc : List (Nat × (Chunk × ℚ)) → List (Nat × (Chunk × ℚ))
  | [] => []
  | x :: xs => insertByScore x (sortByScoreDesc xs)

/-- Build one Retrieval from a ranked (position, (chunk, score)) entry
(retrieve.py 91-99): the path and the original line range are copied from
the chunk unchanged; only the text may be trimmed. -/
def mkRetrieval (smax : Option Int) (p : Nat × (Chunk × ℚ)) : Retrieval :=
  ⟨p.2.1.path, p.2.1.start_line, p.2.1.end_line, retrieveTrim p.2.1.text smax, p.2.2⟩

/-- retrieve (retrieve.py lines 66-100) over an already loaded chunk list:
empty index gives []; otherwise score all chunks, rank them by descending
score (stable), keep the first max(1, k), and build the result records. -/
def retrieve (log : ℚ → ℚ) (chunks : List Chunk) (query : String) (k : Int)
    (smax : Option Int) : List Retrieval :=
  if chunks.isEmpty then []
  else
    ((sortByScoreDesc ((chunks.zip (bm25_scores log chunks query)).enum)).take
      (max 1 k).toNat).map (mkRetrieval smax)

lemma mem_insertByScore (x z : Nat × (Chunk × ℚ)) :
    ∀ l, z ∈ insertByScore x l ↔ z = x ∨ z ∈ l := by
  intro l
  induction l with
  | nil => simp [insertByScore]
  | cons y ys ih =>
    by_cases h : y.2.2 ≤ x.2.2
    · simp [insertByScore, h]
    · simp only [insertByScore, if_neg h, List.mem_cons, ih]
      tauto

lemma length_insertByScore (x : Nat × (Chunk × ℚ)) :
    ∀ l, (insertByScore x l).length = l.length + 1 := by
  intro l
  induction l with
  | nil => rfl
  | cons y ys ih =>
    by_cases h : y.2.2 ≤ x.2.2
    · simp [insertByScore, h]
    · simp [insertByScore, h, ih]

lemma length_sortByScoreDesc : ∀ l, (sortByScoreDesc l).length = l.length := by
  intro l
  induction l with
  | nil => rfl
  | cons x xs ih => simp [sortByScoreDesc, length_insertByScore, ih]

lemma mem_sortByScoreDesc (z : Nat × (Chunk × ℚ)) :
    ∀ l, z ∈ sortByScoreDesc l ↔ z ∈ l := by
  intro l
  induction l with
  | nil => simp [sortByScoreDesc]
  | cons x xs ih =>
    simp only [sortByScoreDesc, mem_insertByScore, ih, List.mem_cons]

/-- The ranking order the claim describes: strictly greater score first,
equal scores resolved by input position. -/
def rankRel (a b : Nat × (Chunk × ℚ)) : Prop :=
  b.2.2 < a.2.2 ∨ (a.2.2 = b.2.2 ∧ a.1 < b.1)

lemma rankRel_score_le {a b : Nat × (Chunk × ℚ)} (h : rankRel a b) : b.2.2 ≤ a.2.2 := by
  rcases h with h | ⟨h, _⟩
  · exact le_of_lt h
  · exact le_of_eq h.symm

lemma pairwise_rankRel_insert (x : Nat × (Chunk × ℚ)) :
    ∀ l, (∀ y ∈ l, x.1 < y.1) → List.Pairwise rankRel l →
      List.Pairwise rankRel (insertByScore x l) := by
  intro l
  induction l with
  | nil => intro _ _; simp [insertByScore]
  | cons y ys ih =>
    intro hidx hp
    rcases List.pairwise_cons.mp hp with ⟨hy, hys⟩
    by_cases h : y.2.2 ≤ x.2.2
    · rw [insertByScore, if_pos h]
      refine List.pairwise_cons.mpr ⟨?_, hp⟩
      intro z hz
      have hzx : z.2.2 ≤ x.2.2 := by
        rcases List.mem_cons.mp hz with rfl | hz'
        · exact h
        · exact le_trans (rankRel_score_le (hy z hz')) h
      rcases lt_or_eq_of_le hzx with hlt | heq
      · exact Or.inl hlt
      · exact Or.inr ⟨heq.symm, hidx z hz⟩
    · rw [insertByScore, if_neg h]
      refine List.pairwise_cons.mpr ⟨?_, ?_⟩
      · intro z hz
        rcases (mem_insertByScore x z ys).mp hz with rfl | hz'
        · exact Or.inl (lt_of_not_le h)
        · exact hy z hz'
      · exact ih (fun z hz => hidx z (List.mem_cons_of_mem _ hz)) hys

lemma pairwise_rankRel_sort :
    ∀ l, List.Pairwise (fun a b : Nat × (Chunk × ℚ) => a.1 < b.1) l →
      List.Pairwise rankRel (sortByScoreDesc l) := by
  intro l
  induction l with
  | nil => intro _; simp [sortByScoreDesc]
  | cons x xs ih =>
    intro hp
    rcases List.pairwise_cons.mp hp with ⟨hx, hxs⟩
    rw [sortByScoreDesc]
    refine pairwise_rankRel_insert x _ ?_ (ih hxs)
    intro y hy
    exact hx y ((mem_sortByScoreDesc y xs).mp hy)

lemma pairwise_idx_enum (l : List (Chunk × ℚ)) :
    List.Pairwise (fun a b : Nat × (Chunk × ℚ) => a.1 < b.1) l.enum := by
  have h1 : List.Pairwise (fun a b : Nat => a < b) (List.range l.length) :=
    List.pairwise_lt_range l.length
  have h2 : List.map Prod.fst l.enum = List.range l.length := List.enum_map_fst l
  have h3 := h2 ▸ h1
  exact (List.pairwise_map.mp h3)

/-- C9: retrieval returns results ordered by descending score, and in the
ranked sequence any two entries with equal scores keep their input order
(the first-seen chunk wins the tie). -/
theorem retrieve_ranking (log : ℚ → ℚ) (chunks : List Chunk) (query : String)
    (k : Int) (smax : Option Int) :
    List.Pairwise (fun a b : Retrieval => b.score ≤ a.score)
      (retrieve log chunks query k smax) ∧
    List.Pairwise rankRel
      (sortByScoreDesc ((chunks.zip (bm25_scores log chunks query)).enum)) := by
  have hsorted : List.Pairwise rankRel
      (sortByScoreDesc ((chunks.zip (bm25_scores log chunks query)).enum)) :=
    pairwise_rankRel_sort _ (pairwise_idx_enum _)
  refine ⟨?_, hsorted⟩
  unfold retrieve
  by_cases hc : chunks.isEmpty
  · simp [hc]
  · rw [if_neg hc]
    refine List.pairwise_map.mpr ?_
    have htake := List.Pairwise.sublist
      (List.take_sublist (max 1 k).toNat _) hsorted
    exact htake.imp (fun h => rankRel_score_le h)

/-- Config (config.py, class Config), restricted to the fields compose
uses; built-in defaults are k=1, snippet_max_chars=500,
max_total_chars=1200 (environment variables may override them). -/
structure Config where
  k : Int
  snippet_max_chars : Int
  max_total_chars : Int
  deriving DecidableEq

/-- The built-in defaults of Config. -/
def cfgDefault : Config := ⟨1, 500, 1200⟩

/-- ComposedContext (compose.py, class ComposedContext). -/
structure ComposedContext where
  text : String
  citations : List String
  deriving DecidableEq

/-- Python `x or d` on an int x: yields d exactly when x == 0. -/
def pyOrInt (x d : Int) : Int := if x = 0 then d else x

/-- _trim (compose.py lines 18-21): keep text whose length is within the
limit, else keep the first max(0, limit-1) characters, right-stripped,
plus an ellipsis. -/
def trimSnippet (text : String) (limit : Int) : String :=
  if (text.length : Int) ≤ limit then text
  else rstrip (pySliceTo text (max 0 (limit - 1))) ++ ellipsisChar

/-- The citation built for one retrieval (compose.py line 43): the
f-string "[" + path + ":" + start_line + "-" + end_line + "]". -/
def citationOf (r : Retrieval) : String :=
  "[" ++ r.path ++ ":" ++ toString r.start_line ++ "-" ++ toString r.end_line ++ "]"

/-- The assembly loop of compose_context (compose.py lines 41-52): append
the trimmed snippet and its citation, re-join with the blank-line
separator, and the moment the joined text exceeds max_total_chars drop the
just-added pair and stop. -/
def assemble (smax mtotal : Int) (parts cites : List String) :
    List Retrieval → List String × List String
  | [] => (parts, cites)
  | r :: rs =>
    if ((String.intercalate "\n\n" (parts ++ [trimSnippet r.text smax])).length : Int)
        > mtotal then
      (parts, cites)
    else
      assemble smax mtotal (parts ++ [trimSnippet r.text smax]) (cites ++ [citationOf r]) rs

/-- compose_context (compose.py lines 24-55): k = max(1, k or cfg.k),
budgets fall back to the configured values when 0, retrieve with the
snippet budget, then run the assembly loop and join with blank lines. -/
def compose_context (cfg : Config) (log : ℚ → ℚ) (chunks : List Chunk)
    (question : String) (k smax mtotal : Int) : ComposedContext :=
  ⟨String.intercalate "\n\n"
      (assemble (pyOrInt smax cfg.snippet_max_chars) (pyOrInt mtotal cfg.max_total_chars)
        [] []
        (retrieve log chunks question (max 1 (pyOrInt k cfg.k))
          (some (pyOrInt smax cfg.snippet_max_chars)))).1,
    (assemble (pyOrInt smax cfg.snippet_max_chars) (pyOrInt mtotal cfg.max_total_chars)
      [] []
      (retrieve log chunks question (max 1 (pyOrInt k cfg.k))
        (some (pyOrInt smax cfg.snippet_max_chars)))).2⟩

lemma assemble_bound (smax mtotal : Int) :
    ∀ (rs : List Retrieval) (parts cites : List String),
      ((String.intercalate "\n\n" parts).length : Int) ≤ mtotal →
      ((String.intercalate "\n\n" (assemble smax mtotal parts cites rs).1).length : Int)
        ≤ mtotal := by
  intro rs
  induction rs with
  | nil => intro parts cites h; exact h
  | cons r rs ih =>
    intro parts cites h
    by_cases hov : ((String.intercalate "\n\n"
        (parts ++ [trimSnippet r.text smax])).length : Int) > mtotal
    · rw [assemble, if_pos hov]
      exact h
    · rw [assemble, if_neg hov]
      exact ih _ _ (le_of_not_lt hov)

lemma assemble_spec (smax mtotal : Int) :
    ∀ (rs : List Retrieval) (parts cites : List String),
      ∃ m, m ≤ rs.length ∧
        (assemble smax mtotal parts cites rs).1
          = parts ++ ((rs.take m).map fun r => trimSnippet r.text smax) ∧
        (assemble smax mtotal parts cites rs).2
          = cites ++ (rs.take m).map citationOf ∧
        (m < rs.length →
          mtotal < ((String.intercalate "\n\n"
            (parts ++ ((rs.take (m + 1)).map fun r => trimSnippet r.text smax))).length : Int)) := by
  intro rs
  induction rs with
  | nil =>
    intro parts cites
    refine ⟨0, Nat.le_refl _, ?_, ?_, ?_⟩
    · simp [assemble]
    · simp [assemble]
    · intro h
      exact absurd h (by simp)
  | cons r rs ih =>
    intro parts cites
    by_cases hov : ((String.intercalate "\n\n"
        (parts ++ [trimSnippet r.text smax])).length : Int) > mtotal
    · refine ⟨0, by omega, ?_, ?_, ?_⟩
      · rw [assemble, if_pos hov]
        simp
      · rw [assemble, if_pos hov]
        simp
      · intro _
        simpa using hov
    · obtain ⟨m, hm, h1, h2, h3⟩ := ih (parts ++ [trimSnippet r.text smax])
        (cites ++ [citationOf r])
      refine ⟨m + 1, by simpa using Nat.succ_le_succ hm, ?_, ?_, ?_⟩
      · rw [assemble, if_neg hov, h1, List.take_succ_cons]
        simp
      · rw [assemble, if_neg hov, h2, List.take_succ_cons]
        simp
      · intro hlt
        have hlt' : m < rs.length := by simpa using Nat.lt_of_succ_lt_succ hlt
        have := h3 hlt'
        rw [List.take_succ_cons]
        simpa [List.append_assoc] using this

lemma retrieve_mem_chunk (log : ℚ → ℚ) (chunks : List Chunk) (query : String)
    (k : Int) (smax : Option Int) :
    ∀ r ∈ retrieve log chunks query k smax,
      ∃ ch ∈ chunks, r.path = ch.path ∧ r.start_line = ch.start_line ∧
        r.end_line = ch.end_line := by
  intro r hr
  unfold retrieve at hr
  by_cases hc : chunks.isEmpty
  · rw [if_pos hc] at hr
    exact absurd hr (List.not_mem_nil r)
  · rw [if_neg hc] at hr
    obtain ⟨p, hp, rfl⟩ := List.mem_map.mp hr
    have hp2 : p ∈ sortByScoreDesc ((chunks.zip (bm25_scores log chunks query)).enum) :=
      List.mem_of_mem_take hp
    have hp3 : p ∈ (chunks.zip (bm25_scores log chunks query)).enum :=
      (mem_sortByScoreDesc p _).mp hp2
    have hp4 : p.2 ∈ chunks.zip (bm25_scores log chunks query) := by
      have he := List.enum_map_snd (chunks.zip (bm25_scores log chunks query))
      rw [← he]
      exact List.mem_map_of_mem Prod.snd hp3
    have hp5 : p.2.1 ∈ chunks := (List.of_mem_zip (by simpa using hp4)).1
    exact ⟨p.2.1, hp5, rfl, rfl, rfl⟩

/-- C3 counterexample: on the one-line file a.md containing
"alpha beta alpha", composing the question "alpha" with k=1, snippet
budget 500 and total budget 1200 does not return the citation "a.md:1-1":
the code wraps every citation in square brackets. -/
theorem compose_citation_not_bare :
    (compose_context cfgDefault (fun _ => 0) [⟨"a.md", 1, 1, "alpha beta alpha"⟩]
      "alpha" 1 500 1200).citations ≠ ["a.md:1-1"] := by
  decide

/-- C3 amended: the i-th kept snippet is paired with the citation string
"[" + path + ":" + start_line + "-" + end_line + "]" (square brackets
included) built from the selected chunk's original pre-trim line range,
in the same order as the snippets; the one-line example yields text
"alpha beta alpha" and citations ["[a.md:1-1]"]. -/
theorem compose_citations_spec (cfg : Config) (log : ℚ → ℚ) (chunks : List Chunk)
    (question : String) (k smax mtotal : Int) :
    (∃ m, m ≤ (retrieve log chunks question (max 1 (pyOrInt k cfg.k))
        (some (pyOrInt smax cfg.snippet_max_chars))).length ∧
      (compose_context cfg log chunks question k smax mtotal).citations
        = ((retrieve log chunks question (max 1 (pyOrInt k cfg.k))
            (some (pyOrInt smax cfg.snippet_max_chars))).take m).map citationOf ∧
      (compose_context cfg log chunks question k smax mtotal).text
        = String.intercalate "\n\n"
            (((retrieve log chunks question (max 1 (pyOrInt k cfg.k))
              (some (pyOrInt smax cfg.snippet_max_chars))).take m).map
              fun r => trimSnippet r.text (pyOrInt smax cfg.snippet_max_chars))) ∧
    (∀ r : Retrieval, citationOf r
      = "[" ++ r.path ++ ":" ++ toString r.start_line ++ "-"
          ++ toString r.end_line ++ "]") ∧
    (∀ r ∈ retrieve log chunks question (max 1 (pyOrInt k cfg.k))
        (some (pyOrInt smax cfg.snippet_max_chars)),
      ∃ ch ∈ chunks, r.path = ch.path ∧ r.start_line = ch.start_line ∧
        r.end_line = ch.end_line) ∧
    compose_context cfgDefault (fun _ => 0) [⟨"a.md", 1, 1, "alpha beta alpha"⟩]
        "alpha" 1 500 1200
      = ⟨"alpha beta alpha", ["[a.md:1-1]"]⟩ := by
  refine ⟨?_, fun r => rfl, retrieve_mem_chunk log chunks question _ _, by decide⟩
  obtain ⟨m, hm, h1, h2, h3⟩ := assemble_spec (pyOrInt smax cfg.snippet_max_chars)
    (pyOrInt mtotal cfg.max_total_chars)
    (retrieve log chunks question (max 1 (pyOrInt k cfg.k))
      (some (pyOrInt smax cfg.snippet_max_chars))) [] []
  refine ⟨m, hm, ?_, ?_⟩
  · show (assemble _ _ [] [] _).2 = _
    rw [h2]
    simp
  · show String.intercalate "\n\n" (assemble _ _ [] [] _).1 = _
    rw [h1]
    simp

theorem compose_citations_spec_witness :
    ∃ ch ∈ ([⟨"a.md", 1, 1, "alpha beta alpha"⟩] : List Chunk),
      (⟨"a.md", 1, 1, "alpha beta alpha", 0⟩ : Retrieval).path = ch.path ∧
      (⟨"a.md", 1, 1, "alpha beta alpha", 0⟩ : Retrieval).start_line = ch.start_line ∧
      (⟨"a.md", 1, 1, "alpha beta alpha", 0⟩ : Retrieval).end_line = ch.end_line :=
  (compose_citations_spec cfgDefault (fun _ => 0) [⟨"a.md", 1, 1, "alpha beta alpha"⟩]
    "q" 1 500 1200).2.2.1 ⟨"a.md", 1, 1, "alpha beta alpha", 0⟩ (by
      have h : retrieve (fun _ => 0) [⟨"a.md", 1, 1, "alpha beta alpha"⟩] "q"
          (max 1 (pyOrInt 1 cfgDefault.k)) (some (pyOrInt 500 cfgDefault.snippet_max_chars))
          = [⟨"a.md", 1, 1, "alpha beta alpha", 0⟩] := by decide
      rw [h]
      exact List.mem_singleton.mpr rfl)

/-- C5 counterexample: the budget bound does not hold for every total
budget T. With T = 0 the code's `max_total_chars or cfg.max_total_chars`
replaces 0 by the configured default (1200), and a nonempty text longer
than T = 0 is composed. -/
theorem compose_budget_zero_cex :
    ¬ (((compose_context cfgDefault (fun _ => 0) [⟨"a.md", 1, 1, "alpha"⟩]
      "q" 1 500 0).text.length : Int) ≤ 0) := by
  decide

/-- C5 amended: for every total budget T ≥ 1 (a budget of 0 falls back to
the configured default instead), the composed text has length at most T;
snippets are appended one at a time and the first time the joined text
would exceed T the just-added snippet and its citation are dropped and
assembly stops, keeping all earlier snippets. -/
theorem compose_budget (cfg : Config) (log : ℚ → ℚ) (chunks : List Chunk)
    (question : String) (k smax T : Int) (hT : 1 ≤ T) :
    (((compose_context cfg log chunks question k smax T).text.length : Int) ≤ T) ∧
    (∃ m, m ≤ (retrieve log chunks question (max 1 (pyOrInt k cfg.k))
        (some (pyOrInt smax cfg.snippet_max_chars))).length ∧
      (compose_context cfg log chunks question k smax T).text
        = String.intercalate "\n\n"
            (((retrieve log chunks question (max 1 (pyOrInt k cfg.k))
              (some (pyOrInt smax cfg.snippet_max_chars))).take m).map
              fun r => trimSnippet r.text (pyOrInt smax cfg.snippet_max_chars)) ∧
      (compose_context cfg log chunks question k smax T).citations
        = ((retrieve log chunks question (max 1 (pyOrInt k cfg.k))
            (some (pyOrInt smax cfg.snippet_max_chars))).take m).map citationOf ∧
      (m < (retrieve log chunks question (max 1 (pyOrInt k cfg.k))
          (some (pyOrInt smax cfg.snippet_max_chars))).length →
        T < ((String.intercalate "\n\n"
          (((retrieve log chunks question (max 1 (pyOrInt k cfg.k))
            (some (pyOrInt smax cfg.snippet_max_chars))).take (m + 1)).map
            fun r => trimSnippet r.text (pyOrInt smax cfg.snippet_max_chars))).length : Int))) := by
  have hT0 : pyOrInt T cfg.max_total_chars = T := by
    rw [pyOrInt, if_neg (by omega)]
  constructor
  · show ((String.intercalate "\n\n" (assemble _ _ [] [] _).1).length : Int) ≤ _
    rw [hT0]
    refine assemble_bound _ T _ [] [] ?_
    have h0 : (String.intercalate "\n\n" ([] : List String)).length = 0 := rfl
    rw [h0]
    omega
  · obtain ⟨m, hm, h1, h2, h3⟩ := assemble_spec (pyOrInt smax cfg.snippet_max_chars)
      (pyOrInt T cfg.max_total_chars)
      (retrieve log chunks question (max 1 (pyOrInt k cfg.k))
        (some (pyOrInt smax cfg.snippet_max_chars))) [] []
    refine ⟨m, hm, ?_, ?_, ?_⟩
    · show String.intercalate "\n\n" (assemble _ _ [] [] _).1 = _
      rw [h1]
      simp
    · show (assemble _ _ [] [] _).2 = _
      rw [h2]
      simp
    · intro hlt
      have := h3 hlt
      rw [hT0] at this
      simpa using this

theorem compose_budget_witness :
    (1 : Int) ≤ 1200 ∧
    ((compose_context cfgDefault (fun _ => 0) [⟨"a.md", 1, 1, "alpha"⟩]
      "q" 1 500 1200).text.length : Int) ≤ 1200 :=
  ⟨by decide,
    (compose_budget cfgDefault (fun _ => 0) [⟨"a.md", 1, 1, "alpha"⟩]
      "q" 1 500 1200 (by decide)).1⟩

/-- C10 counterexample: compose does not clamp every requested k below 1
up to 1. With requested k = 0 and a configured default of k = 3, Python's
`k or cfg.k` replaces 0 by 3 and three snippets/citations are returned. -/
theorem compose_k_zero_cex :
    ((compose_context ⟨3, 500, 1200⟩ (fun _ => 0)
      [⟨"a.md", 1, 1, "a"⟩, ⟨"b.md", 1, 1, "b"⟩, ⟨"c.md", 1, 1, "c"⟩]
      "q" 0 500 1200).citations).length ≠ 1 := by
  decide

/-- C10 amended: on a nonempty index retrieve returns exactly
min(max(1,k), #chunks) results (so k = 0 or negative k still yields one
result from retrieve); compose clamps a negative k to 1 (at most one
snippet), but a requested k of 0 falls back to the configured default k
instead of 1. -/
theorem retrieve_count (log : ℚ → ℚ) (chunks : List Chunk) (query : String)
    (k : Int) (smax : Option Int) (cfg : Config) (question : String) (s T : Int) :
    (chunks ≠ [] →
      (retrieve log chunks query k smax).length = min (max 1 k).toNat chunks.length) ∧
    (k < 0 →
      ((compose_context cfg log chunks question k s T).citations).length ≤ 1) ∧
    compose_context cfg log chunks question 0 s T
      = compose_context cfg log chunks question cfg.k s T := by
  have hlen : ∀ (qq : String) (kk : Int) (sm : Option Int), chunks ≠ [] →
      (retrieve log chunks qq kk sm).length = min (max 1 kk).toNat chunks.length := by
    intro qq kk sm hc
    have hc' : chunks.isEmpty = false := by
      simpa using hc
    have hs : (bm25_scores log chunks qq).length = chunks.length := by
      simp [bm25_scores, chunkTokens]
    rw [retrieve, if_neg (by simp [hc'])]
    rw [List.length_map, List.length_take, length_sortByScoreDesc, List.enum_length,
      List.length_zip, hs, min_self]
  refine ⟨hlen query k smax, ?_, ?_⟩
  · intro hk
    have hkk : pyOrInt k cfg.k = k := by
      rw [pyOrInt, if_neg (by omega)]
    have hmax : max 1 (pyOrInt k cfg.k) = 1 := by
      rw [hkk]
      exact max_eq_left (by omega)
    obtain ⟨m, hm, _, h2, _⟩ := assemble_spec (pyOrInt s cfg.snippet_max_chars)
      (pyOrInt T cfg.max_total_chars)
      (retrieve log chunks question (max 1 (pyOrInt k cfg.k))
        (some (pyOrInt s cfg.snippet_max_chars))) [] []
    have hres : (retrieve log chunks question (max 1 (pyOrInt k cfg.k))
        (some (pyOrInt s cfg.snippet_max_chars))).length ≤ 1 := by
      by_cases hc : chunks = []
      · subst hc
        rw [retrieve, if_pos (by decide)]
        decide
      · rw [hlen question _ _ hc, hmax]
        simp
    show ((assemble _ _ [] [] _).2).length ≤ 1
    rw [h2]
    simp only [List.nil_append, List.length_map, List.length_take]
    omega
  · have e1 : pyOrInt 0 cfg.k = cfg.k := by
      rw [pyOrInt, if_pos rfl]
    have e2 : pyOrInt cfg.k cfg.k = cfg.k := by
      rw [pyOrInt]
      split <;> rfl
    rw [compose_context, compose_context, e1, e2]

theorem retrieve_count_witness :
    ([⟨"a.md", 1, 1, "a"⟩] : List Chunk) ≠ [] ∧
    (retrieve (fun _ => 0) [⟨"a.md", 1, 1, "a"⟩] "q" 5 none).length
      = min ((max 1 (5 : Int)).toNat) 1 :=
  ⟨by decide,
    (retrieve_count (fun _ => 0) [⟨"a.md", 1, 1, "a"⟩] "q" 5 none
      cfgDefault "q" 500 1200).1 (by decide)⟩

/-- Per-file fingerprint (incremental.py, _file_info): size and mtime_ns,
plus a content hash in "hash" mode (absent in "mtime" mode). -/
structure FileInfo where
  size : Nat
  mtime_ns : Int
  sha1 : Option String
  deriving DecidableEq

/-- Fingerprint inequality as compared by diff_tree (incremental.py 108):
a.get("mtime_ns") != b.get("mtime_ns") or a.get("size") != b.get("size")
or a.get("sha1") != b.get("sha1"). -/
def infoDiffers (a b : FileInfo) : Bool :=
  a.mtime_ns != b.mtime_ns || a.size != b.size || a.sha1 != b.sha1

/-- A manifest: a dict from normalized file key to fingerprint, modelled
as an association list with dict lookup semantics. -/
abbrev Manifest := List (String × FileInfo)

/-- The three key sets diff_tree returns. -/
structure DiffResult where
  added : List String
  modified : List String
  removed : List String
  deriving DecidableEq

/-- The classification of diff_tree (incremental.py lines 96-111), taking
the previous manifest and the freshly computed current manifest:
added = cur_keys - prev_keys, removed = prev_keys - cur_keys, and
modified = keys in both whose fingerprints differ in any field. -/
def diff_tree (prev cur : Manifest) : DiffResult where
  added := (cur.map Prod.fst).filter fun k => !(prev.map Prod.fst).contains k
  removed := (prev.map Prod.fst).filter fun k => !(cur.map Prod.fst).contains k
  modified := ((cur.map Prod.fst).filter fun k => (prev.map Prod.fst).contains k).filter
    fun k =>
      match prev.lookup k, cur.lookup k with
      | some a, some b => infoDiffers a b
      | _, _ => false

lemma contains_iff_mem_str (l : List String) (a : String) :
    l.contains a = true ↔ a ∈ l := by
  simp [List.contains, List.elem_iff]

lemma lookup_none_iff {β : Type} (m : List (String × β)) (k : String) :
    m.lookup k = none ↔ k ∉ m.map Prod.fst := by
  induction m with
  | nil => simp
  | cons p t ih =>
    obtain ⟨a, b⟩ := p
    by_cases h : k = a
    · subst h
      simp [List.lookup]
    · have hb : (k == a) = false := beq_false_of_ne h
      simp [List.lookup, hb, ih, h]

lemma lookup_mem {β : Type} (m : List (String × β)) (k : String)
    (h : k ∈ m.map Prod.fst) : ∃ v, m.lookup k = some v := by
  rcases ho : m.lookup k with _ | v
  · exact absurd h ((lookup_none_iff m k).mp ho)
  · exact ⟨v, rfl⟩

lemma lookup_some_mem {β : Type} {m : List (String × β)} {k : String} {v : β}
    (h : m.lookup k = some v) : k ∈ m.map Prod.fst := by
  by_contra hn
  rw [(lookup_none_iff m k).mpr hn] at h
  exact Option.noConfusion h

/-- C7: diff_tree classifies keys into three pairwise-disjoint sets: a key
in current but not previous is added; in previous but not current is
removed; in both with a fingerprint differing in any field (size, mtime,
or content hash) is modified; a key in both with identical fingerprints
is in none of the three. -/
theorem diff_tree_classification (prev cur : Manifest) (k : String) :
    (k ∈ (diff_tree prev cur).added ↔
      k ∈ cur.map Prod.fst ∧ k ∉ prev.map Prod.fst) ∧
    (k ∈ (diff_tree prev cur).removed ↔
      k ∈ prev.map Prod.fst ∧ k ∉ cur.map Prod.fst) ∧
    (k ∈ (diff_tree prev cur).modified ↔
      ∃ fa fb, prev.lookup k = some fa ∧ cur.lookup k = some fb ∧
        (fa.size ≠ fb.size ∨ fa.mtime_ns ≠ fb.mtime_ns ∨ fa.sha1 ≠ fb.sha1)) ∧
    ¬ (k ∈ (diff_tree prev cur).added ∧ k ∈ (diff_tree prev cur).modified) ∧
    ¬ (k ∈ (diff_tree prev cur).added ∧ k ∈ (diff_tree prev cur).removed) ∧
    ¬ (k ∈ (diff_tree prev cur).modified ∧ k ∈ (diff_tree prev cur).removed) ∧
    (∀ f, prev.lookup k = some f → cur.lookup k = some f →
      k ∉ (diff_tree prev cur).added ∧ k ∉ (diff_tree prev cur).modified ∧
      k ∉ (diff_tree prev cur).removed) := by
  have hadd : k ∈ (diff_tree prev cur).added ↔
      k ∈ cur.map Prod.fst ∧ k ∉ prev.map Prod.fst := by
    rw [diff_tree]
    simp only [List.mem_filter, Bool.not_eq_true']
    constructor
    · rintro ⟨h1, h2⟩
      exact ⟨h1, fun hm => by
        rw [(contains_iff_mem_str _ _).mpr hm] at h2
        exact Bool.noConfusion h2⟩
    · rintro ⟨h1, h2⟩
      refine ⟨h1, ?_⟩
      rcases hb : (prev.map Prod.fst).contains k with _ | _
      · rfl
      · exact absurd ((contains_iff_mem_str _ _).mp hb) h2
  have hrem : k ∈ (diff_tree prev cur).removed ↔
      k ∈ prev.map Prod.fst ∧ k ∉ cur.map Prod.fst := by
    rw [diff_tree]
    simp only [List.mem_filter, Bool.not_eq_true']
    constructor
    · rintro ⟨h1, h2⟩
      exact ⟨h1, fun hm => by
        rw [(contains_iff_mem_str _ _).mpr hm] at h2
        exact Bool.noConfusion h2⟩
    · rintro ⟨h1, h2⟩
      refine ⟨h1, ?_⟩
      rcases hb : (cur.map Prod.fst).contains k with _ | _
      · rfl
      · exact absurd ((contains_iff_mem_str _ _).mp hb) h2
  have hdiffers : ∀ fa fb : FileInfo, infoDiffers fa fb = true ↔
      (fa.size ≠ fb.size ∨ fa.mtime_ns ≠ fb.mtime_ns ∨ fa.sha1 ≠ fb.sha1) := by
    intro fa fb
    simp only [infoDiffers, Bool.or_eq_true, bne_iff_ne]
    tauto
  have hmod : k ∈ (diff_tree prev cur).modified ↔
      ∃ fa fb, prev.lookup k = some fa ∧ cur.lookup k = some fb ∧
        (fa.size ≠ fb.size ∨ fa.mtime_ns ≠ fb.mtime_ns ∨ fa.sha1 ≠ fb.sha1) := by
    rw [diff_tree]
    simp only [List.mem_filter]
    constructor
    · rintro ⟨⟨h1, h2⟩, h3⟩
      rcases hp : prev.lookup k with _ | fa
      · rw [hp] at h3
        rcases hc : cur.lookup k with _ | fb <;> rw [hc] at h3 <;>
          exact Bool.noConfusion h3
      · rcases hc : cur.lookup k with _ | fb
        · rw [hp, hc] at h3
          exact Bool.noConfusion h3
        · rw [hp, hc] at h3
          exact ⟨fa, fb, rfl, rfl, (hdiffers fa fb).mp h3⟩
    · rintro ⟨fa, fb, hp, hc, hne⟩
      refine ⟨⟨lookup_some_mem hc, (contains_iff_mem_str _ _).mpr (lookup_some_mem hp)⟩, ?_⟩
      rw [hp, hc]
      exact (hdiffers fa fb).mpr hne
  refine ⟨hadd, hrem, hmod, ?_, ?_, ?_, ?_⟩
  · rintro ⟨ha, hm⟩
    obtain ⟨fa, _, hp, _, _⟩ := hmod.mp hm
    exact (hadd.mp ha).2 (lookup_some_mem hp)
  · rintro ⟨ha, hr⟩
    exact (hrem.mp hr).2 (hadd.mp ha).1
  · rintro ⟨hm, hr⟩
    obtain ⟨_, fb, _, hc, _⟩ := hmod.mp hm
    exact (hrem.mp hr).2 (lookup_some_mem hc)
  · intro f hp hc
    refine ⟨?_, ?_, ?_⟩
    · intro ha
      exact (hadd.mp ha).2 (lookup_some_mem hp)
    · intro hm
      obtain ⟨fa, fb, hp', hc', hne⟩ := hmod.mp hm
      rw [hp] at hp'
      rw [hc] at hc'
      cases hp'
      cases hc'
      rcases hne with h | h | h <;> exact h rfl
    · intro hr
      exact (hrem.mp hr).2 (lookup_some_mem hc)

theorem diff_tree_classification_witness :
    ("a.md" : String) ∈ (diff_tree [] [("a.md", ⟨3, 5, none⟩)]).added :=
  (diff_tree_classification [] [("a.md", ⟨3, 5, none⟩)] "a.md").1.mpr
    ⟨by decide, by decide⟩

/-- The state incremental_build reads and writes: the persisted manifest
(_load_manifest yields the empty dict when the file is missing) and the
persisted index content (none when the index file does not exist). -/
structure BuildState where
  manifest : Manifest
  index : Option (List Chunk)
  deriving DecidableEq

/-- The result dict of incremental_build (skipped flag and the reported
added/modified/removed counts). -/
structure IncrReport where
  skipped : Bool
  added : Nat
  modified : Nat
  removed : Nat
  deriving DecidableEq

/-- incremental_build (incremental.py lines 113-177): diff the saved
manifest against the manifest computed from the current tree; when
nothing was added, modified or removed and the index file exists, skip
and touch nothing; otherwise run the full build and then persist the
current manifest. The unchanged filesystem is modelled by the manifest
diff_tree computes from it (cur), and the full-build callback by the
index content it produces (builtIndex). -/
def incremental_build (cur : Manifest) (builtIndex : List Chunk) (st : BuildState) :
    IncrReport × BuildState :=
  if (diff_tree st.manifest cur).added.length = 0 ∧
      (diff_tree st.manifest cur).modified.length = 0 ∧
      (diff_tree st.manifest cur).removed.length = 0 ∧ st.index.isSome = true then
    (⟨true, 0, 0, 0⟩, st)
  else
    (⟨false, (diff_tree st.manifest cur).added.length,
      (diff_tree st.manifest cur).modified.length,
      (diff_tree st.manifest cur).removed.length⟩,
     ⟨cur, some builtIndex⟩)

/-- CLI snapshot fingerprint (cli.py _snapshot): (st_mtime, st_size). -/
abbrev CliManifest := List (String × (ℚ × Nat))

/-- The changed set of cmd_build's incremental branch (cli.py line 105):
keys of the current snapshot that are missing from the saved manifest or
carry a different fingerprint. -/
def cliChanged (prev cur : CliManifest) : List String :=
  (cur.map Prod.fst).filter fun p =>
    match prev.lookup p with
    | none => true
    | some a => decide (cur.lookup p ≠ some a)

/-- The deleted set (cli.py line 106, without --no-delete). -/
def cliDeleted (prev cur : CliManifest) : List String :=
  (prev.map Prod.fst).filter fun p => !(cur.map Prod.fst).contains p

/-- cmd_build's incremental branch (cli.py lines 101-121): when nothing
changed and nothing was deleted and the index exists, emit
changed_files=0, deleted_files=0 and return without touching index or
manifest; otherwise merge and save the new manifest. merged models the
index content _merge_jsonl produces. -/
def cmd_build_incr (cur : CliManifest) (merged : List Chunk)
    (manifest : CliManifest) (index : Option (List Chunk)) :
    (Bool × Nat × Nat) × CliManifest × Option (List Chunk) :=
  if (cliChanged manifest cur).length = 0 ∧ (cliDeleted manifest cur).length = 0 ∧
      index.isSome = true then
    ((true, 0, 0), manifest, index)
  else
    ((false, (cliChanged manifest cur).length, (cliDeleted manifest cur).length),
     cur, some merged)

lemma diff_tree_self (m : Manifest) : diff_tree m m = ⟨[], [], []⟩ := by
  rw [diff_tree]
  refine congrArg (fun t => DiffResult.mk t.1 t.2.1 t.2.2)
    (show (_, _, _) = (([] : List String), ([] : List String), ([] : List String)) from ?_)
  refine Prod.ext ?_ (Prod.ext ?_ ?_)
  · show (m.map Prod.fst).filter (fun k => !(m.map Prod.fst).contains k) = []
    refine List.filter_eq_nil_iff.mpr ?_
    intro a ha
    rw [(contains_iff_mem_str _ _).mpr ha]
    decide
  · show ((m.map Prod.fst).filter _).filter _ = []
    refine List.filter_eq_nil_iff.mpr ?_
    intro a ha
    rcases hp : m.lookup a with _ | v
    · simp [hp]
    · simp [hp, infoDiffers]
  · show (m.map Prod.fst).filter (fun k => !(m.map Prod.fst).contains k) = []
    refine List.filter_eq_nil_iff.mpr ?_
    intro a ha
    rw [(contains_iff_mem_str _ _).mpr ha]
    decide

lemma cliChanged_self (m : CliManifest) : cliChanged m m = [] := by
  rw [cliChanged]
  refine List.filter_eq_nil_iff.mpr ?_
  intro a ha
  obtain ⟨v, hv⟩ := lookup_mem m a ha
  simp [hv]

lemma cliDeleted_self (m : CliManifest) : cliDeleted m m = [] := by
  rw [cliDeleted]
  refine List.filter_eq_nil_iff.mpr ?_
  intro a ha
  rw [(contains_iff_mem_str _ _).mpr ha]
  decide

/-- C8: running an incremental build twice over the same unchanged tree
makes the second run a no-op: incremental_build reports skipped with zero
added/modified/removed and leaves manifest and index untouched (the index
existing after the first run); the CLI incremental branch likewise
reports changed_files=0, deleted_files=0 on the second run and leaves the
persisted manifest and index identical. -/
theorem incremental_build_idempotent (cur : Manifest) (builtIndex : List Chunk)
    (st : BuildState) (snap : CliManifest) (merged : List Chunk)
    (manifest0 : CliManifest) (index0 : Option (List Chunk)) :
    ((incremental_build cur builtIndex (incremental_build cur builtIndex st).2).1
        = ⟨true, 0, 0, 0⟩ ∧
      (incremental_build cur builtIndex (incremental_build cur builtIndex st).2).2
        = (incremental_build cur builtIndex st).2 ∧
      ((incremental_build cur builtIndex st).2.index).isSome = true) ∧
    ((cmd_build_incr snap merged
        (cmd_build_incr snap merged manifest0 index0).2.1
        (cmd_build_incr snap merged manifest0 index0).2.2).1 = (true, 0, 0) ∧
      (cmd_build_incr snap merged
        (cmd_build_incr snap merged manifest0 index0).2.1
        (cmd_build_incr snap merged manifest0 index0).2.2).2
        = (cmd_build_incr snap merged manifest0 index0).2) := by
  constructor
  · by_cases hskip : (diff_tree st.manifest cur).added.length = 0 ∧
        (diff_tree st.manifest cur).modified.length = 0 ∧
        (diff_tree st.manifest cur).removed.length = 0 ∧ st.index.isSome = true
    · have h1 : incremental_build cur builtIndex st = (⟨true, 0, 0, 0⟩, st) := by
        rw [incremental_build, if_pos hskip]
      rw [h1]
      have h2 : incremental_build cur builtIndex st = (⟨true, 0, 0, 0⟩, st) := h1
      rw [incremental_build, if_pos hskip]
      exact ⟨rfl, rfl, hskip.2.2.2⟩
    · have h1 : (incremental_build cur builtIndex st).2 = ⟨cur, some builtIndex⟩ := by
        rw [incremental_build, if_neg hskip]
      rw [h1]
      have hcond : (diff_tree (⟨cur, some builtIndex⟩ : BuildState).manifest cur).added.length = 0 ∧
          (diff_tree (⟨cur, some builtIndex⟩ : BuildState).manifest cur).modified.length = 0 ∧
          (diff_tree (⟨cur, some builtIndex⟩ : BuildState).manifest cur).removed.length = 0 ∧
          ((⟨cur, some builtIndex⟩ : BuildState).index).isSome = true := by
        show (diff_tree cur cur).added.length = 0 ∧
          (diff_tree cur cur).modified.length = 0 ∧
          (diff_tree cur cur).removed.length = 0 ∧ (some builtIndex).isSome = true
        rw [diff_tree_self]
        exact ⟨rfl, rfl, rfl, rfl⟩
      rw [incremental_build, if_pos hcond]
      exact ⟨rfl, rfl, rfl⟩
  · by_cases hskip : (cliChanged manifest0 snap).length = 0 ∧
        (cliDeleted manifest0 snap).length = 0 ∧ index0.isSome = true
    · have h1 : cmd_build_incr snap merged manifest0 index0
          = ((true, 0, 0), manifest0, index0) := by
        rw [cmd_build_incr, if_pos hskip]
      rw [h1]
      rw [cmd_build_incr, if_pos hskip]
      exact ⟨rfl, rfl⟩
    · have h1 : (cmd_build_incr snap merged manifest0 index0).2
          = (snap, some merged) := by
        rw [cmd_build_incr, if_neg hskip]
      rw [h1]
      have hcond : (cliChanged snap snap).length = 0 ∧
          (cliDeleted snap snap).length = 0 ∧ (some merged).isSome = true := by
        rw [cliChanged_self, cliDeleted_self]
        exact ⟨rfl, rfl, rfl⟩
      rw [cmd_build_incr, if_pos hcond]
      exact ⟨rfl, rfl⟩

end RagOp
